import Mathlib

/-!
Verification of the RAG core of the Ayurvedic assistant repository.

The Python sources under `src/` are shallowly embedded here:
* text is modelled as `List Char` (Python `str` is a sequence of characters);
* Python floats that only ever hold exact values in the claims are modelled
  as `Rat` (scores, distances) — cosine similarity itself involves a square
  root and is therefore kept as an abstract similarity function where only
  ranking matters;
* fallible calls (embedding-model invocations, constructor validation)
  return `Except`/`Option`;
* the third-party collaborators the code delegates to are modelled from
  their documented semantics: langchain's `RecursiveCharacterTextSplitter`
  (used by `TextChunker`) is translated function by function
  (`_split_text`, `_split_text_with_regex`, `_merge_splits`, `_join_docs`),
  and langchain's FAISS wrapper (`similarity_search_with_score`) is
  modelled as exact nearest-neighbour search returning squared-L2
  distances in ascending order (its documented "lower score represents
  more similarity" behaviour).
-/

namespace AyurRag

/-! ## Character-list utilities (Python `str` operations) -/

/-- Python `str.strip()`: drop whitespace from both ends.
(Only ASCII whitespace is modelled; the corpus claims do not depend on
exotic Unicode space classes.) -/
def stripChars (l : List Char) : List Char :=
  ((l.dropWhile Char.isWhitespace).reverse.dropWhile Char.isWhitespace).reverse

/-- Python `pat in text` for a literal pattern (also `re.search` after
`re.escape`): does `pat` occur as a contiguous subsequence of `text`? -/
def containsSeq (pat : List Char) : List Char → Bool
  | [] => pat.isEmpty
  | c :: rest => pat.isPrefixOf (c :: rest) || containsSeq pat rest

theorem isPrefixOf_length_le :
    ∀ {l₁ l₂ : List Char}, l₁.isPrefixOf l₂ = true → l₁.length ≤ l₂.length
  | [], _, _ => by simp
  | a :: as, [], h => by simp [List.isPrefixOf] at h
  | a :: as, b :: bs, h => by
    simp only [List.isPrefixOf, Bool.and_eq_true] at h
    simpa using isPrefixOf_length_le h.2

/-- Python `re.split(re.escape(sep), text)` for a non-empty literal `sep`:
the contents between non-overlapping left-to-right occurrences of `sep`.
`acc` is the (reversed) content accumulated since the last separator.
(`sep = []` never occurs at a call site; that guard returns the rest.) -/
def splitOnSeq (sep : List Char) : List Char → List Char → List (List Char)
  | [], acc => [acc.reverse]
  | c :: rest, acc =>
    if hs : sep.isEmpty then [acc.reverse ++ c :: rest]
    else if sep.isPrefixOf (c :: rest) then
      acc.reverse :: splitOnSeq sep ((c :: rest).drop sep.length) []
    else splitOnSeq sep rest (c :: acc)
termination_by text _ => text.length
decreasing_by
  · simp only [List.length_drop]
    have hlen : 0 < sep.length := by
      cases sep with
      | nil => simp at hs
      | cons a as => simp
    simp
    omega
  · simp

/-- Python `s.lower()` (ASCII model). -/
def lowerChars (l : List Char) : List Char := l.map Char.toLower

/-- Sum of the lengths of a list of strings. -/
def sumLens (l : List (List Char)) : Nat := (l.map List.length).sum

/-! ## The recursive character splitter

`TextChunker` (src/src/data_processing/text_chunker.py) delegates the
actual splitting to langchain's `RecursiveCharacterTextSplitter`
constructed with `chunk_size`, `chunk_overlap`, `length_function=len`,
and `separators=["\n\n", "\n", ". ", " ", ""]`.  The splitter is
translated below function by function from the langchain source. -/

/-- The chunking configuration (`chunk_size`, `chunk_overlap`). -/
structure ChunkCfg where
  chunkSize : Nat
  chunkOverlap : Nat
  deriving Repr, DecidableEq

/-- `_join_docs(docs, separator)`: join, strip (the default
`strip_whitespace=True`), and return `None` when empty. -/
def sepJoin (sep : List Char) : List (List Char) → List Char
  | [] => []
  | [d] => d
  | d :: ds => d ++ sep ++ sepJoin sep ds

def joinDocs (sep : List Char) (docs : List (List Char)) : Option (List Char) :=
  let text := stripChars (sepJoin sep docs)
  if text.isEmpty then none else some text

/-- The popping `while` loop inside `_merge_splits`: drop leading pieces of
`cur` while the running total exceeds `chunk_overlap`, or while appending
the next piece (of length `dLen`) would overflow `chunk_size`.
The running `total` is Python's incrementally maintained sum.
(When `cur` is empty the loop condition is false in every reachable state
because `total = 0`; Python would raise `IndexError` otherwise.) -/
def popWhile (cfg : ChunkCfg) (sepLen dLen : Int) :
    List (List Char) → Int → List (List Char) × Int
  | [], total => ([], total)
  | d0 :: rest, total =>
    if total > (cfg.chunkOverlap : Int) ∨
        (total + dLen + sepLen > (cfg.chunkSize : Int) ∧ total > 0) then
      popWhile cfg sepLen dLen rest
        (total - ((d0.length : Int) + (if rest.length > 0 then sepLen else 0)))
    else (d0 :: rest, total)

/-- The body of `_merge_splits`: accumulate pieces into `cur` (Python's
`current_doc`, with running length `total`), flushing a joined chunk
whenever the next piece would overflow `chunk_size`. -/
def mergeLoop (cfg : ChunkCfg) (sep : List Char) :
    List (List Char) → List (List Char) → Int → List (List Char)
  | [], cur, _total => (joinDocs sep cur).toList
  | d :: ds, cur, total =>
    let dLen : Int := d.length
    let sepLen : Int := sep.length
    if total + dLen + (if cur.length > 0 then sepLen else 0) >
        (cfg.chunkSize : Int) then
      if cur.length > 0 then
        let flushed := (joinDocs sep cur).toList
        let pr := popWhile cfg sepLen dLen cur total
        flushed ++ mergeLoop cfg sep ds (pr.1 ++ [d])
          (pr.2 + dLen + (if (pr.1 ++ [d]).length > 1 then sepLen else 0))
      else
        mergeLoop cfg sep ds (cur ++ [d])
          (total + dLen + (if (cur ++ [d]).length > 1 then sepLen else 0))
    else
      mergeLoop cfg sep ds (cur ++ [d])
        (total + dLen + (if (cur ++ [d]).length > 1 then sepLen else 0))

/-- `_merge_splits(splits, separator)`. -/
def mergeSplits (cfg : ChunkCfg) (sep : List Char)
    (splits : List (List Char)) : List (List Char) :=
  mergeLoop cfg sep splits [] 0

/-- The separator-selection loop at the top of `_split_text`: scan the
separator list for the first separator that is `""` or occurs in the
text; return it together with the remaining separators
(`new_separators`).  `last` is Python's initial `separators[-1]`
fallback, used only when no separator matches. -/
def chooseSep (last : List Char) : List (List Char) → List Char →
    List Char × List (List Char)
  | [], _ => (last, [])
  | s :: rest, text =>
    if s.isEmpty then ([], [])
    else if containsSeq s text then (s, rest)
    else chooseSep last rest text

/-- `_split_text_with_regex(text, re.escape(separator), keep_separator=True)`:
split at the separator keeping each separator occurrence glued to the
piece that follows it, then drop empty pieces.  (`re.split` with one
capture group always returns an odd-length list, so langchain's
defensive `len(_splits) % 2 == 0` branch is dead and not modelled.)
For the empty separator the Python code takes `list(text)`. -/
def splitWithSep (sep : List Char) (text : List Char) : List (List Char) :=
  if sep.isEmpty then
    (text.map fun c => [c]).filter fun s => !s.isEmpty
  else
    match splitOnSeq sep text [] with
    | [] => []
    | p :: ps => (p :: ps.map (sep ++ ·)).filter fun s => !s.isEmpty

theorem chooseSep_snd_length_le (last : List Char) :
    ∀ (seps : List (List Char)) (text : List Char),
      (chooseSep last seps text).2.length ≤ seps.length
  | [], _ => by simp [chooseSep]
  | s :: rest, text => by
    simp only [chooseSep]
    split
    · simp
    · split
      · simp
      · exact (chooseSep_snd_length_le last rest text).trans (by simp)

theorem chooseSep_snd_length_lt (last : List Char) (s : List Char)
    (rest : List (List Char)) (text : List Char) :
    (chooseSep last (s :: rest) text).2.length < (s :: rest).length := by
  simp only [chooseSep]
  split
  · simp
  · split
    · simp
    · exact Nat.lt_succ_of_le (chooseSep_snd_length_le last rest text)

mutual

/-- `_split_text(text, separators)`: pick the active separator, split,
and process the pieces.  (Python indexes `separators[-1]`, so it is never
called with an empty list; the `[]` branch is unreachable.) -/
def splitTextAux (cfg : ChunkCfg) (seps : List (List Char))
    (text : List Char) : List (List Char) :=
  match seps with
  | [] => []
  | s0 :: rest =>
    let pr := chooseSep ((s0 :: rest).getLastD []) (s0 :: rest) text
    splitLoop cfg pr.2 (splitWithSep pr.1 text) []
termination_by (seps.length, 0, 0)
decreasing_by
  exact Prod.Lex.left _ _ (chooseSep_snd_length_lt _ _ _ _)

/-- The piece-processing loop of `_split_text`: short pieces are buffered
in `good` (Python's `_good_splits`) and merged; oversized pieces flush
the buffer and are either re-split with the remaining separators or, when
none remain, emitted as-is. -/
def splitLoop (cfg : ChunkCfg) (newSeps : List (List Char))
    (splits : List (List Char)) (good : List (List Char)) :
    List (List Char) :=
  match splits with
  | [] => if good.isEmpty then [] else mergeSplits cfg [] good
  | s :: rest =>
    if s.length < cfg.chunkSize then
      splitLoop cfg newSeps rest (good ++ [s])
    else
      (if good.isEmpty then [] else mergeSplits cfg [] good)
        ++ (if newSeps.isEmpty then [s] else splitTextAux cfg newSeps s)
        ++ splitLoop cfg newSeps rest []
termination_by (newSeps.length, 1, splits.length)

end

/-- The separator list `["\n\n", "\n", ". ", " ", ""]` the `TextChunker`
passes to the splitter. -/
def defaultSeps : List (List Char) :=
  [['\n', '\n'], ['\n'], ['.', ' '], [' '], []]

/-- `RecursiveCharacterTextSplitter.split_text` as configured by
`TextChunker.__init__`. -/
def splitText (cfg : ChunkCfg) (text : List Char) : List (List Char) :=
  splitTextAux cfg defaultSeps text

/-! ## TextChunker (src/src/data_processing/text_chunker.py) -/

/-- Python's `x or default` for an optional integer argument: `None` and
`0` are falsy and fall back to the default. -/
def orDefault (x : Option Nat) (dflt : Nat) : Nat :=
  match x with
  | none => dflt
  | some 0 => dflt
  | some n => n

/-- The `TextChunker` after construction. -/
structure TextChunker where
  chunkSize : Nat
  chunkOverlap : Nat
  deriving Repr, DecidableEq

/-- `TextChunker.__init__(chunk_size, chunk_overlap)`: resolve the
defaults (`settings.chunk_size = 1000`, `settings.chunk_overlap = 200`)
through Python truthiness, then construct the underlying
`RecursiveCharacterTextSplitter`, whose `TextSplitter.__init__` raises
`ValueError` when `chunk_overlap > chunk_size` (strictly). -/
def mkTextChunker (chunkSize chunkOverlap : Option Nat) :
    Except String TextChunker :=
  let size := orDefault chunkSize 1000
  let overlap := orDefault chunkOverlap 200
  if overlap > size then
    .error "Got a larger chunk overlap than chunk size, should be smaller."
  else
    .ok { chunkSize := size, chunkOverlap := overlap }

/-- A chunk record as built by `_chunk_document` / `chunk_text`:
`chunk_id`, stripped `content`, and the metadata fields the claims
mention (`chunk_index`, `total_chunks`, and the source file for document
chunks). Inherited document metadata is not modelled. -/
structure Chunk where
  chunkId : String
  content : List Char
  chunkIndex : Nat
  totalChunks : Nat
  sourceFile : Option String
  deriving Repr, DecidableEq

/-- A loaded document as consumed by `_chunk_document` (the fields the
chunker reads). -/
structure PyDocument where
  fileName : String
  content : List Char
  deriving Repr, DecidableEq

/-- `TextChunker.chunk_text(text, metadata)`: return `[]` for blank text,
split, then keep only pieces that are non-blank after stripping, keeping
the original enumeration index `i` as `chunk_index` and the pre-filter
count `len(text_chunks)` as `total_chunks`. -/
def chunkText (tc : TextChunker) (text : List Char) : List Chunk :=
  if (stripChars text).isEmpty then []
  else
    let textChunks := splitText ⟨tc.chunkSize, tc.chunkOverlap⟩ text
    textChunks.enum.filterMap fun p =>
      if (stripChars p.2).isEmpty then none
      else some
        { chunkId := "text_chunk_" ++ toString p.1
          content := stripChars p.2
          chunkIndex := p.1
          totalChunks := textChunks.length
          sourceFile := none }

/-- `TextChunker._chunk_document(document)`: same loop as `chunk_text`
but with the document's file name in `chunk_id` and metadata. -/
def chunkDocument (tc : TextChunker) (doc : PyDocument) : List Chunk :=
  if (stripChars doc.content).isEmpty then []
  else
    let textChunks := splitText ⟨tc.chunkSize, tc.chunkOverlap⟩ doc.content
    textChunks.enum.filterMap fun p =>
      if (stripChars p.2).isEmpty then none
      else some
        { chunkId := doc.fileName ++ "_chunk_" ++ toString p.1
          content := stripChars p.2
          chunkIndex := p.1
          totalChunks := textChunks.length
          sourceFile := some doc.fileName }

/-! ## Settings (src/src/config/settings.py) -/

/-- The configuration fields relevant to the chunking claims. -/
structure Settings where
  googleApiKey : String
  chunkSize : Nat
  chunkOverlap : Nat
  topKRetrieval : Nat
  deriving Repr, DecidableEq

/-- `Settings.__init__`: the only construction-time validation is that
`GOOGLE_API_KEY` is non-empty; the chunking numbers are read from the
environment and stored without any overlap-versus-size check. -/
def mkSettings (googleApiKey : String) (chunkSize chunkOverlap topK : Nat) :
    Except String Settings :=
  if googleApiKey = "" then
    .error "GOOGLE_API_KEY environment variable is required"
  else
    .ok { googleApiKey := googleApiKey, chunkSize := chunkSize,
          chunkOverlap := chunkOverlap, topKRetrieval := topK }

/-- `Settings.validate()`: checks the API key, temperature bounds (not
modelled: always in range here), `chunk_size > 0` and
`top_k_retrieval > 0` — and nothing about `chunk_overlap`. -/
def Settings.validate (s : Settings) : Bool :=
  if s.googleApiKey = "" then false
  else if s.chunkSize = 0 then false
  else if s.topKRetrieval = 0 then false
  else true

/-! ## EmbeddingManager (src/src/rag/embeddings.py)

The sentence-transformers model is the external embedding collaborator:
deterministic, one fixed-dimensional vector per input text
(`embedOne`), but a whole `model.encode(texts)` call may raise — the
failure oracle `encodeFails` says which batches do.  Cosine similarity
is real-valued (it divides by square-root norms), so the manager carries
it as an abstract similarity function `simFn`; every ranking claim below
is proved for an arbitrary `simFn`. -/

structure EmbeddingManager where
  dim : Nat
  embedOne : String → List Rat
  encodeFails : List String → Bool
  simFn : List Rat → List Rat → Rat

/-- `generate_embeddings(texts)`: one `model.encode` call; re-raises on
failure (modelled as `Except.error`). -/
def generateEmbeddings (em : EmbeddingManager) (texts : List String) :
    Except String (List (List Rat)) :=
  if em.encodeFails texts then .error "Error generating embeddings"
  else .ok (texts.map em.embedOne)

/-- `generate_embedding(text)`: `model.encode([text])[0]`; re-raises on
failure. -/
def generateEmbedding (em : EmbeddingManager) (text : String) :
    Except String (List Rat) :=
  if em.encodeFails [text] then .error "Error generating embedding"
  else .ok (em.embedOne text)

/-- `batch_generate_embeddings(texts, batch_size)`: process
`texts[i:i+batch_size]` groups in order; a failing batch contributes
`[[0.0] * dim] * len(batch)` instead of aborting.  (Python's
`range(0, len(texts), batch_size)` requires a positive step; the
`batchSize = 0` guard returning `[]` is outside the claims' scope.) -/
def batchGenerateEmbeddings (em : EmbeddingManager) (batchSize : Nat)
    (texts : List String) : List (List Rat) :=
  if texts.isEmpty ∨ batchSize = 0 then []
  else
    (match generateEmbeddings em (texts.take batchSize) with
      | .ok embs => embs
      | .error _ =>
        List.replicate (texts.take batchSize).length
          (List.replicate em.dim 0))
      ++ batchGenerateEmbeddings em batchSize (texts.drop batchSize)
termination_by texts.length
decreasing_by
  rename_i h
  rw [not_or] at h
  simp only [List.length_drop]
  have h1 : texts ≠ [] := by simpa using h.1
  cases texts with
  | nil => exact absurd rfl h1
  | cons a as => simp; omega

/-- The sorted-insert step of a stable descending sort by score: the new
pair goes after every pair with a greater-or-equal score (Python
`list.sort` is stable, and `reverse=True` keeps equal keys in original
order). -/
def insertDesc (x : Nat × Rat) : List (Nat × Rat) → List (Nat × Rat)
  | [] => [x]
  | y :: ys => if x.2 ≤ y.2 then y :: insertDesc x ys else x :: y :: ys

/-- `similarities.sort(key=lambda x: x[1], reverse=True)`: stable
descending sort by score, inserting the pairs in their original order. -/
def sortDesc (l : List (Nat × Rat)) : List (Nat × Rat) :=
  l.foldl (fun acc x => insertDesc x acc) []

/-- `find_most_similar(query_embedding, candidate_embeddings, top_k)`:
score every candidate with `self.similarity`, sort descending (stable),
truncate to `top_k`. -/
def findMostSimilar (em : EmbeddingManager) (queryEmbedding : List Rat)
    (candidateEmbeddings : List (List Rat)) (topK : Nat) :
    List (Nat × Rat) :=
  let similarities :=
    candidateEmbeddings.enum.map fun p => (p.1, em.simFn queryEmbedding p.2)
  (sortDesc similarities).take topK

/-! ## VectorStore (src/src/rag/vector_store.py)

The langchain FAISS wrapper is the indexing collaborator.  Its
`from_documents`/`add_documents` embed the page contents with the
langchain embeddings object — the same underlying model as the manager —
and append (vector, document) entries to the index.
`similarity_search_with_score` embeds the query, runs exact
nearest-neighbour search on the default `IndexFlatL2`, and returns
`(document, squared-L2 distance)` pairs in ascending distance order —
"lower score represents more similarity" per its documentation. -/

/-- The metadata payload a stored document carries (the field the
retriever reads, `metadata.get("source_file", "unknown")`). -/
structure DocMeta where
  sourceFile : Option String
  deriving Repr, DecidableEq

/-- A langchain `Document(page_content=text, metadata=metadata)`. -/
structure VSDoc where
  pageContent : String
  metadata : DocMeta
  deriving Repr, DecidableEq

/-- One FAISS index entry: the embedding vector and its payload. -/
structure FaissEntry where
  vec : List Rat
  doc : VSDoc

/-- An input chunk as consumed by `add_documents` (a dict with
`content` and `metadata`). -/
structure VSChunk where
  content : String
  metadata : DocMeta

/-- The `VectorStore` state: the optional FAISS index plus the parallel
`documents` / `metadata` tracking lists. -/
structure VectorStore where
  em : EmbeddingManager
  faissIndex : Option (List FaissEntry)
  documents : List VSDoc
  metadata : List DocMeta

/-- `VectorStore.add_documents(chunks)`: returns the new state and the
boolean result.  Empty input and embedding exceptions (from the
manager's `generate_embeddings` or from FAISS's internal embedding of
the same texts) are caught and yield `False` with no mutation; on
success the batch is embedded and appended and the tracking lists are
extended. -/
def addDocuments (vs : VectorStore) (chunks : List VSChunk) :
    VectorStore × Bool :=
  if chunks.isEmpty then (vs, false)
  else
    let texts := chunks.map (·.content)
    match generateEmbeddings vs.em texts with
    | .error _ => (vs, false)
    | .ok _embeddings =>
      -- FAISS.from_documents / faiss_index.add_documents re-embed the
      -- texts through the langchain wrapper over the same model.
      match generateEmbeddings vs.em texts with
      | .error _ => (vs, false)
      | .ok vecs =>
        let docs := chunks.map fun c => VSDoc.mk c.content c.metadata
        let entries := List.zipWith FaissEntry.mk vecs docs
        let newIndex :=
          match vs.faissIndex with
          | none => entries
          | some ix => ix ++ entries
        ({ em := vs.em
           faissIndex := some newIndex
           documents := vs.documents ++ docs
           metadata := vs.metadata ++ chunks.map (·.metadata) }, true)

/-- Squared L2 distance, the score FAISS's default `IndexFlatL2`
reports. -/
def l2sq (a b : List Rat) : Rat :=
  ((List.zipWith (fun x y => (x - y) ^ 2) a b).sum)

/-- Stable ascending insertion by score (FAISS returns neighbours in
ascending distance order; ties keep index order). -/
def insertAsc (x : VSDoc × Rat) : List (VSDoc × Rat) → List (VSDoc × Rat)
  | [] => [x]
  | y :: ys => if y.2 ≤ x.2 then y :: insertAsc x ys else x :: y :: ys

def sortAsc (l : List (VSDoc × Rat)) : List (VSDoc × Rat) :=
  l.foldl (fun acc x => insertAsc x acc) []

/-- One search result dict: `content`, `metadata`,
`similarity_score` (the raw FAISS distance cast to float). -/
structure SearchResult where
  content : String
  metadata : DocMeta
  similarityScore : Rat
  deriving Repr, DecidableEq

/-- `VectorStore.search(query, top_k)`: `[]` when no index; otherwise
embed the query (an exception is caught and yields `[]`), rank all
entries by ascending squared-L2 distance, truncate to
`top_k or settings.top_k_retrieval` (default 5), and package the
results. -/
def search (vs : VectorStore) (query : String) (topK : Option Nat) :
    List SearchResult :=
  match vs.faissIndex with
  | none => []
  | some ix =>
    let k := orDefault topK 5
    match generateEmbedding vs.em query with
    | .error _ => []
    | .ok qv =>
      let scored := ix.map fun e => (e.doc, l2sq qv e.vec)
      ((sortAsc scored).take k).map fun p =>
        { content := p.1.pageContent
          metadata := p.1.metadata
          similarityScore := p.2 }

/-! ## AyurvedicRetriever (src/src/rag/retriever.py) -/

/-- One formatted retrieval result. -/
structure RetResult where
  content : String
  metadata : DocMeta
  score : Rat
  source : String
  deriving Repr, DecidableEq

/-- The retriever state: `self.retriever` is set (to the vector store
itself) by `_initialize_retriever` only when the store has an index at
construction time. -/
structure AyurvedicRetriever where
  vectorStore : VectorStore
  retrieverInit : Bool

/-- `AyurvedicRetriever.__init__(vector_store)`. -/
def mkRetriever (vs : VectorStore) : AyurvedicRetriever :=
  { vectorStore := vs, retrieverInit := vs.faissIndex.isSome }

/-- `retrieve(query, top_k)`: `[]` when the retriever is uninitialized,
otherwise reshape each search result, with
`source = metadata.get("source_file", "unknown")`. -/
def retrieve (r : AyurvedicRetriever) (query : String) (topK : Option Nat) :
    List RetResult :=
  if !r.retrieverInit then []
  else
    (search r.vectorStore query topK).map fun s =>
      { content := s.content
        metadata := s.metadata
        score := s.similarityScore
        source := s.metadata.sourceFile.getD "unknown" }

/-- Python `"%.3f" % score` for the rational scores of this model,
truncating the fractional expansion at three digits.  (Exact IEEE-754
rendering is outside the model; no claim depends on it.) -/
def formatScore3 (q : Rat) : String :=
  let sign := if q < 0 then "-" else ""
  let n := (1000 * |q|).floor.toNat
  sign ++ toString (n / 1000) ++ "." ++
    (let f := n % 1000
     (if f < 100 then "0" else "") ++ (if f < 10 then "0" else "") ++
       toString f)

/-- `get_relevant_context(query, top_k)`: the literal
`"No relevant context found."` when `retrieve` yields nothing, otherwise
the numbered context blocks joined by newlines. -/
def getRelevantContext (r : AyurvedicRetriever) (query : String)
    (topK : Option Nat) : String :=
  let results := retrieve r query topK
  if results.isEmpty then "No relevant context found."
  else
    String.intercalate "\n" <| results.enum.map fun p =>
      "Document " ++ toString (p.1 + 1) ++ " (Source: " ++ p.2.source ++
        ", Relevance: " ++ formatScore3 p.2.score ++ "):\n" ++
        p.2.content ++ "\n"

/-- `retrieve_with_filters(query, source_filter, min_score, top_k)`:
drop results with `score < min_score`, and, when `source_filter` is
truthy (neither `None` nor `""`), results whose lowercased source does
not contain the lowercased filter. -/
def retrieveWithFilters (r : AyurvedicRetriever) (query : String)
    (sourceFilter : Option String) (minScore : Rat) (topK : Option Nat) :
    List RetResult :=
  (retrieve r query topK).filter fun res =>
    !(res.score < minScore) &&
      (match sourceFilter with
        | none => true
        | some f =>
          if f = "" then true
          else containsSeq (lowerChars f.toList) (lowerChars res.source.toList))

/-- `is_initialized()`. -/
def isInitialized (r : AyurvedicRetriever) : Bool :=
  r.retrieverInit && r.vectorStore.faissIndex.isSome

/-! ## Concrete fixtures used by witnesses and counterexamples -/

/-- An embedding model that never fails; "alpha" maps to the origin,
every other text two units away. -/
def emFix : EmbeddingManager :=
  { dim := 1
    embedOne := fun s => if s = "alpha" then [0] else [2]
    encodeFails := fun _ => false
    simFn := fun _ _ => 0 }

/-- An embedding model whose encode call fails exactly on batches
containing the text "bad". -/
def emFail : EmbeddingManager :=
  { dim := 2
    embedOne := fun _ => [1, 1]
    encodeFails := fun texts => texts.contains "bad"
    simFn := fun a b => (List.zipWith (· * ·) a b).sum }

/-- A fresh, empty vector store. -/
def vsEmpty : VectorStore :=
  { em := emFix, faissIndex := none, documents := [], metadata := [] }

/-- The store after successfully adding two chunks. -/
def vsTwo : VectorStore :=
  (addDocuments vsEmpty
    [{ content := "alpha", metadata := { sourceFile := some "a.txt" } },
     { content := "beta", metadata := { sourceFile := some "b.txt" } }]).1

/-! ## C3: failed add_documents leaves the store unchanged -/

/-- C3: whenever `add_documents` returns `False` — the empty-chunk-list
case or an embedding exception — the store's index, documents and
metadata are exactly what they were before the call. -/
theorem add_documents_failure_preserves_state (vs : VectorStore)
    (chunks : List VSChunk) (h : (addDocuments vs chunks).2 = false) :
    (addDocuments vs chunks).1 = vs := by
  by_cases hc : chunks.isEmpty
  · simp [addDocuments, hc]
  · simp only [addDocuments, hc, Bool.false_eq_true, if_false] at h ⊢
    cases hge : generateEmbeddings vs.em (chunks.map (·.content)) with
    | error e => simp [hge]
    | ok v => simp [hge] at h

/-- Witness for C3 at the concrete empty-batch input. -/
theorem add_documents_failure_preserves_state_witness :
    (addDocuments vsEmpty []).2 = false ∧ (addDocuments vsEmpty []).1 = vsEmpty :=
  ⟨rfl, add_documents_failure_preserves_state vsEmpty [] rfl⟩

/-! ## C4: graceful behaviour on an empty / uninitialized store -/

/-- C4: with no index, `search` returns `[]`, a retriever constructed on
that store `retrieve`s `[]`, and `get_relevant_context` returns the
literal "No relevant context found."; all three paths are total. -/
theorem empty_store_graceful (vs : VectorStore) (query : String)
    (topK : Option Nat) (h : vs.faissIndex = none) :
    search vs query topK = [] ∧
      retrieve (mkRetriever vs) query topK = [] ∧
      getRelevantContext (mkRetriever vs) query topK =
        "No relevant context found." := by
  have hs : search vs query topK = [] := by simp [search, h]
  have hr : retrieve (mkRetriever vs) query topK = [] := by
    simp [retrieve, mkRetriever, h]
  exact ⟨hs, hr, by simp [getRelevantContext, hr]⟩

/-- Witness for C4 on a concrete fresh store. -/
theorem empty_store_graceful_witness :
    vsEmpty.faissIndex = none ∧
      (search vsEmpty "query" none = [] ∧
        retrieve (mkRetriever vsEmpty) "query" none = [] ∧
        getRelevantContext (mkRetriever vsEmpty) "query" none =
          "No relevant context found.") :=
  ⟨rfl, empty_store_graceful vsEmpty "query" none rfl⟩

/-! ## C9: overlap ≥ size is not always rejected at construction -/

/-- Counterexample to C9 as stated: constructing the `TextChunker` with
`chunk_overlap == chunk_size` succeeds (langchain only rejects strictly
larger overlaps), and the `Settings` object accepts
`chunk_overlap > chunk_size` outright. -/
theorem overlap_ge_size_fail_fast_cex :
    (∃ tc, mkTextChunker (some 100) (some 100) = .ok tc) ∧
      (∃ s, mkSettings "key" 1000 2000 5 = .ok s ∧ s.validate = true) :=
  ⟨⟨{ chunkSize := 100, chunkOverlap := 100 }, rfl⟩,
    ⟨{ googleApiKey := "key", chunkSize := 1000, chunkOverlap := 2000,
       topKRetrieval := 5 }, rfl, rfl⟩⟩

/-- C9 (amended): `TextChunker` construction fails fast exactly when the
resolved overlap strictly exceeds the resolved size; equality is
accepted, and `Settings` never checks the overlap. -/
theorem chunker_construction_fails_iff (chunkSize chunkOverlap : Option Nat) :
    (∃ e, mkTextChunker chunkSize chunkOverlap = .error e) ↔
      orDefault chunkSize 1000 < orDefault chunkOverlap 200 := by
  by_cases hlt : orDefault chunkSize 1000 < orDefault chunkOverlap 200
  · simp [mkTextChunker, hlt]
  · simp [mkTextChunker, hlt]

/-! ## C10: batch_generate_embeddings preserves the text count -/

/-- C10: for a positive batch size the output has one vector per input
text, whether or not any batch fails. -/
theorem batch_embeddings_length (em : EmbeddingManager) (batchSize : Nat)
    (h : 1 ≤ batchSize) :
    ∀ texts : List String,
      (batchGenerateEmbeddings em batchSize texts).length = texts.length := by
  have main : ∀ (n : Nat) (texts : List String), texts.length ≤ n →
      (batchGenerateEmbeddings em batchSize texts).length = texts.length := by
    intro n
    induction n with
    | zero =>
      intro l hl
      have hnil : l = [] := List.length_eq_zero.mp (Nat.le_zero.mp hl)
      subst hnil
      rw [batchGenerateEmbeddings]
      simp
    | succ n ih =>
      intro l hl
      rw [batchGenerateEmbeddings]
      by_cases hle : l.isEmpty
      · simp [hle, List.isEmpty_iff.mp hle]
      · have hne : ¬(l.isEmpty = true ∨ batchSize = 0) := by
          rintro (hc | hc)
          · exact hle hc
          · omega
        simp only [hne, if_false, List.length_append]
        have hrec : (batchGenerateEmbeddings em batchSize
            (l.drop batchSize)).length = (l.drop batchSize).length := by
          apply ih
          have hlen : 0 < l.length := by
            cases l with
            | nil => simp at hle
            | cons a as => simp
          simp only [List.length_drop]
          omega
        have hhead : (match generateEmbeddings em (l.take batchSize) with
            | .ok embs => embs
            | .error _ =>
              List.replicate (l.take batchSize).length
                (List.replicate em.dim 0)).length =
            (l.take batchSize).length := by
          cases hge : generateEmbeddings em (l.take batchSize) with
          | ok embs =>
            simp only [generateEmbeddings] at hge
            split at hge
            · exact absurd hge (by simp)
            · cases hge
              simp
          | error e => simp
        rw [hhead, hrec]
        simp only [List.length_take, List.length_drop]
        omega
  exact fun texts => main texts.length texts le_rfl

/-- Witness for C10 on a concrete failing input (batch "bad" fails, yet
three vectors come back for three texts). -/
theorem batch_embeddings_length_witness :
    1 ≤ 2 ∧
      (batchGenerateEmbeddings emFail 2 ["x", "y", "bad"]).length = 3 :=
  ⟨by decide, batch_embeddings_length emFail 2 (by decide) ["x", "y", "bad"]⟩

/-! ## C8: retrieve_with_filters is an order-preserving filter -/

theorem containsSeq_nil (text : List Char) : containsSeq [] text = true := by
  cases text <;> simp [containsSeq, List.isPrefixOf]

/-- C8: the filtered result is a sublist of `retrieve`'s result (same
elements by identity, relative order preserved), and membership is
characterized exactly by the score threshold together with the
case-insensitive source-substring condition. -/
theorem retrieve_with_filters_spec (r : AyurvedicRetriever) (query : String)
    (sourceFilter : Option String) (minScore : Rat) (topK : Option Nat) :
    List.Sublist (retrieveWithFilters r query sourceFilter minScore topK)
        (retrieve r query topK) ∧
      ∀ res, res ∈ retrieveWithFilters r query sourceFilter minScore topK ↔
        (res ∈ retrieve r query topK ∧ minScore ≤ res.score ∧
          ∀ f, sourceFilter = some f →
            containsSeq (lowerChars f.toList)
              (lowerChars res.source.toList) = true) := by
  constructor
  · exact List.filter_sublist _
  · intro res
    rw [retrieveWithFilters, List.mem_filter]
    constructor
    · rintro ⟨hmem, hcond⟩
      simp only [Bool.and_eq_true, Bool.not_eq_true'] at hcond
      refine ⟨hmem, not_lt.mp (by simpa using hcond.1), ?_⟩
      intro f hf
      subst hf
      simp only at hcond
      by_cases hf0 : f = ""
      · subst hf0
        simpa [lowerChars] using containsSeq_nil (lowerChars res.source.toList)
      · simpa [hf0] using hcond.2
    · rintro ⟨hmem, hscore, hsub⟩
      refine ⟨hmem, ?_⟩
      simp only [Bool.and_eq_true, Bool.not_eq_true']
      refine ⟨by simpa using not_lt.mpr hscore, ?_⟩
      cases sourceFilter with
      | none => simp
      | some f =>
        by_cases hf0 : f = ""
        · simp [hf0]
        · simpa [hf0] using hsub f rfl

/-! ## Sortedness of the two result orderings (C1 and C7) -/

theorem insertAsc_chain (x : VSDoc × Rat) :
    ∀ l : List (VSDoc × Rat),
      List.Chain' (fun a b => a.2 ≤ b.2) l →
      List.Chain' (fun a b => a.2 ≤ b.2) (insertAsc x l)
  | [], _ => by simp [insertAsc]
  | y :: ys, h => by
    rw [insertAsc]
    split
    · next hyx =>
      rw [List.chain'_cons']
      refine ⟨?_, insertAsc_chain x ys h.tail⟩
      intro b hb
      cases ys with
      | nil =>
        simp only [insertAsc, Option.mem_def, List.head?_cons,
          Option.some.injEq] at hb
        subst hb; exact hyx
      | cons z zs =>
        rw [insertAsc] at hb
        split at hb
        · simp only [Option.mem_def, List.head?_cons, Option.some.injEq] at hb
          subst hb
          exact (List.chain'_cons.mp h).1
        · simp only [Option.mem_def, List.head?_cons, Option.some.injEq] at hb
          subst hb; exact hyx
    · next hyx =>
      rw [List.chain'_cons']
      refine ⟨?_, h⟩
      intro b hb
      simp only [Option.mem_def, List.head?_cons, Option.some.injEq] at hb
      subst hb
      exact le_of_lt (not_le.mp hyx)

theorem sortAsc_go_chain :
    ∀ (rem acc : List (VSDoc × Rat)),
      List.Chain' (fun a b => a.2 ≤ b.2) acc →
      List.Chain' (fun a b => a.2 ≤ b.2)
        (rem.foldl (fun acc x => insertAsc x acc) acc)
  | [], _, h => h
  | x :: rest, acc, h => sortAsc_go_chain rest _ (insertAsc_chain x acc h)

theorem sortAsc_chain (l : List (VSDoc × Rat)) :
    List.Chain' (fun a b => a.2 ≤ b.2) (sortAsc l) :=
  sortAsc_go_chain l [] (by simp)

/-- C1 (amended): for every store and query, the `similarity_score`
values `search` returns are in non-decreasing order — FAISS scores are
L2 distances, so the best (lowest-distance) result comes first. -/
theorem search_scores_nondecreasing (vs : VectorStore) (query : String)
    (topK : Option Nat) :
    List.Chain' (· ≤ ·) ((search vs query topK).map (·.similarityScore)) := by
  unfold search
  cases hix : vs.faissIndex with
  | none => simp
  | some ix =>
    cases hq : generateEmbedding vs.em query with
    | error e => simp [hq]
    | ok qv =>
      simp only [hq, List.map_map]
      rw [List.chain'_map]
      exact ((sortAsc_chain _).take _)

/-- Counterexample to C1 as stated: on a non-empty store built through
`add_documents`, the scores come back `[0, 4]` — ascending distances —
which violates "non-increasing similarity_score". -/
theorem search_nonincreasing_cex :
    (search vsTwo "alpha" (some 5)).map (·.similarityScore) = [0, 4] ∧
      ¬ List.Chain' (fun a b : Rat => b ≤ a)
          ((search vsTwo "alpha" (some 5)).map (·.similarityScore)) := by
  have hval : (search vsTwo "alpha" (some 5)).map (·.similarityScore) =
      [0, 4] := by
    simp [vsTwo, vsEmpty, emFix, addDocuments, search,
      generateEmbeddings, generateEmbedding, orDefault, sortAsc, insertAsc,
      l2sq]
    norm_num
  refine ⟨hval, ?_⟩
  rw [hval]
  intro hchain
  have h4 := (List.chain'_cons.mp hchain).1
  norm_num at h4

/-! ## C7: find_most_similar ranking -/

/-- The strict ranking order of `find_most_similar`'s output: higher
score first, equal scores broken by ascending candidate index. -/
def rankLt (a b : Nat × Rat) : Prop :=
  b.2 < a.2 ∨ (a.2 = b.2 ∧ a.1 < b.1)

theorem insertDesc_mem (x : Nat × Rat) :
    ∀ (l : List (Nat × Rat)) (z : Nat × Rat),
      z ∈ insertDesc x l → z = x ∨ z ∈ l
  | [], z, hz => by simpa [insertDesc] using hz
  | y :: ys, z, hz => by
    rw [insertDesc] at hz
    split at hz
    · rcases List.mem_cons.mp hz with hzy | hz'
      · exact Or.inr (by simp [hzy])
      · rcases insertDesc_mem x ys z hz' with h | h
        · exact Or.inl h
        · exact Or.inr (List.mem_cons_of_mem _ h)
    · rcases List.mem_cons.mp hz with hzx | hz'
      · exact Or.inl hzx
      · exact Or.inr hz'

theorem insertDesc_chain (x : Nat × Rat) :
    ∀ l : List (Nat × Rat),
      List.Chain' rankLt l → (∀ y ∈ l, y.1 < x.1) →
      List.Chain' rankLt (insertDesc x l)
  | [], _, _ => by simp [insertDesc]
  | y :: ys, h, hidx => by
    rw [insertDesc]
    split
    · next hyx =>
      rw [List.chain'_cons']
      refine ⟨?_, insertDesc_chain x ys h.tail
        (fun z hz => hidx z (List.mem_cons_of_mem _ hz))⟩
      intro b hb
      have hRyx : rankLt y x := by
        rcases lt_or_eq_of_le hyx with hlt | heq
        · exact Or.inl hlt
        · exact Or.inr ⟨heq.symm, hidx y (List.mem_cons_self y ys)⟩
      cases ys with
      | nil =>
        simp only [insertDesc, Option.mem_def, List.head?_cons,
          Option.some.injEq] at hb
        subst hb; exact hRyx
      | cons z zs =>
        rw [insertDesc] at hb
        split at hb
        · simp only [Option.mem_def, List.head?_cons, Option.some.injEq] at hb
          subst hb
          exact (List.chain'_cons.mp h).1
        · simp only [Option.mem_def, List.head?_cons, Option.some.injEq] at hb
          subst hb; exact hRyx
    · next hyx =>
      rw [List.chain'_cons']
      refine ⟨?_, h⟩
      intro b hb
      simp only [Option.mem_def, List.head?_cons, Option.some.injEq] at hb
      subst hb
      exact Or.inl (not_le.mp hyx)

theorem sortDesc_go_chain :
    ∀ (rem acc : List (Nat × Rat)),
      List.Chain' rankLt acc →
      (∀ y ∈ acc, ∀ z ∈ rem, y.1 < z.1) →
      List.Pairwise (fun a b => a.1 < b.1) rem →
      List.Chain' rankLt (rem.foldl (fun acc x => insertDesc x acc) acc)
  | [], _, h, _, _ => h
  | x :: rest, acc, h, hcross, hpw => by
    refine sortDesc_go_chain rest (insertDesc x acc)
      (insertDesc_chain x acc h
        (fun y hy => hcross y hy x (List.mem_cons_self x rest)))
      ?_ (List.pairwise_cons.mp hpw).2
    intro y hy z hz
    rcases insertDesc_mem x acc y hy with hyx | hyacc
    · subst hyx
      exact (List.pairwise_cons.mp hpw).1 z hz
    · exact hcross y hyacc z (List.mem_cons_of_mem _ hz)

theorem insertDesc_perm (x : Nat × Rat) :
    ∀ l : List (Nat × Rat), List.Perm (insertDesc x l) (x :: l)
  | [] => by simp [insertDesc]
  | y :: ys => by
    rw [insertDesc]
    split
    · exact ((insertDesc_perm x ys).cons y).trans (List.Perm.swap x y ys)
    · exact List.Perm.refl _

theorem sortDesc_go_perm :
    ∀ (rem acc : List (Nat × Rat)),
      List.Perm (rem.foldl (fun acc x => insertDesc x acc) acc) (acc ++ rem)
  | [], acc => by simp
  | x :: rest, acc => by
    refine (sortDesc_go_perm rest (insertDesc x acc)).trans ?_
    have h1 : List.Perm (insertDesc x acc ++ rest) ((x :: acc) ++ rest) :=
      (insertDesc_perm x acc).append_right rest
    refine h1.trans ?_
    simpa using List.perm_middle.symm

theorem sortDesc_perm (l : List (Nat × Rat)) : List.Perm (sortDesc l) l := by
  simpa [sortDesc] using sortDesc_go_perm l []

/-- C7: `find_most_similar` returns the scored `(index, score)` pairs —
`sortDesc similarities` is a permutation of the scored enumeration —
sorted strictly by descending score with the candidate index as a stable
tie-break (lower index first among equal scores), truncated to at most
`top_k` elements. -/
theorem find_most_similar_spec (em : EmbeddingManager)
    (queryEmbedding : List Rat) (candidateEmbeddings : List (List Rat))
    (topK : Nat) :
    List.Perm
        (sortDesc (candidateEmbeddings.enum.map
          fun p => (p.1, em.simFn queryEmbedding p.2)))
        (candidateEmbeddings.enum.map
          fun p => (p.1, em.simFn queryEmbedding p.2)) ∧
      findMostSimilar em queryEmbedding candidateEmbeddings topK =
        (sortDesc (candidateEmbeddings.enum.map
          fun p => (p.1, em.simFn queryEmbedding p.2))).take topK ∧
      List.Chain' rankLt
        (findMostSimilar em queryEmbedding candidateEmbeddings topK) ∧
      (findMostSimilar em queryEmbedding candidateEmbeddings topK).length =
        min topK candidateEmbeddings.length := by
  refine ⟨sortDesc_perm _, rfl, ?_, ?_⟩
  · have hpw : List.Pairwise (fun a b : Nat × Rat => a.1 < b.1)
        (candidateEmbeddings.enum.map
          fun p => (p.1, em.simFn queryEmbedding p.2)) := by
      rw [List.pairwise_map]
      have h1 : List.Pairwise (· < ·)
          (candidateEmbeddings.enum.map Prod.fst) := by
        rw [List.enum_map_fst]
        exact List.pairwise_lt_range _
      exact List.pairwise_map.mp h1
    have hchain : List.Chain' rankLt
        (sortDesc (candidateEmbeddings.enum.map
          fun p => (p.1, em.simFn queryEmbedding p.2))) := by
      rw [sortDesc]
      exact sortDesc_go_chain _ [] (by simp) (by simp) hpw
    exact hchain.take _
  · have hlen : (sortDesc (candidateEmbeddings.enum.map
        fun p => (p.1, em.simFn queryEmbedding p.2))).length =
        candidateEmbeddings.length := by
      rw [(sortDesc_perm _).length_eq]
      simp
    simp [findMostSimilar, hlen]

/-! ## C6: a failing batch is replaced by zero-vectors, others unchanged -/

/-- The vectors one batch contributes: its embeddings on success,
zero-vectors of the manager's dimensionality on failure. -/
theorem batchBlock_eval (em : EmbeddingManager) (batch : List String) :
    (match generateEmbeddings em batch with
      | .ok embs => embs
      | .error _ =>
        List.replicate batch.length (List.replicate em.dim 0)) =
      (if em.encodeFails batch then
        List.replicate batch.length (List.replicate em.dim 0)
      else batch.map em.embedOne) := by
  by_cases hf : em.encodeFails batch
  · simp [generateEmbeddings, hf]
  · simp [generateEmbeddings, hf]

/-- C6: with a positive batch size, position `i` of the output is the
zero-vector of the manager's dimensionality exactly when the batch
containing `i` (the group `texts[i/batch_size*batch_size :][:batch_size]`)
fails, and is the model's embedding of `texts[i]` otherwise — so a
failure replaces exactly its own batch's positions and leaves every
other batch's embeddings unchanged. -/
theorem batch_embeddings_failure_isolation (em : EmbeddingManager)
    (batchSize : Nat) (hbs : 1 ≤ batchSize) :
    ∀ (texts : List String) (i : Nat) (hi : i < texts.length),
      (batchGenerateEmbeddings em batchSize texts)[i]? =
        some (if em.encodeFails
            ((texts.drop (i / batchSize * batchSize)).take batchSize) then
          List.replicate em.dim 0
        else em.embedOne texts[i]) := by
  have main : ∀ (n : Nat) (texts : List String) (i : Nat),
      texts.length ≤ n → ∀ hi : i < texts.length,
      (batchGenerateEmbeddings em batchSize texts)[i]? =
        some (if em.encodeFails
            ((texts.drop (i / batchSize * batchSize)).take batchSize) then
          List.replicate em.dim 0
        else em.embedOne texts[i]) := by
    intro n
    induction n with
    | zero =>
      intro l i hl hi
      omega
    | succ n ih =>
      intro l i hl hi
      have hlne : ¬(l.isEmpty = true ∨ batchSize = 0) := by
        rintro (hc | hc)
        · rw [List.isEmpty_iff] at hc
          subst hc
          simp at hi
        · omega
      rw [batchGenerateEmbeddings]
      simp only [hlne, if_false, batchBlock_eval]
      have hblock : (if em.encodeFails (l.take batchSize) then
          List.replicate (l.take batchSize).length (List.replicate em.dim 0)
        else (l.take batchSize).map em.embedOne).length =
          (l.take batchSize).length := by
        split <;> simp
      by_cases hcase : i < batchSize
      · -- i sits in the first batch
        have hdiv : i / batchSize = 0 := Nat.div_eq_of_lt hcase
        have hilt : i < (l.take batchSize).length := by
          simp only [List.length_take]
          omega
        rw [List.getElem?_append_left (by omega)]
        rw [hdiv]
        simp only [Nat.zero_mul, List.drop_zero]
        by_cases hf : em.encodeFails (l.take batchSize)
        · rw [if_pos hf, if_pos hf]
          simp only [List.getElem?_replicate, List.length_take]
          rw [if_pos (by omega)]
        · rw [if_neg hf, if_neg hf]
          rw [List.getElem?_eq_getElem (by simpa using hilt)]
          simp only [List.getElem_map, Option.some.injEq]
          congr 1
          rw [List.getElem_take]
      · -- i belongs to a later batch: recurse on the dropped tail
        obtain ⟨j, rfl⟩ : ∃ j, i = batchSize + j :=
          ⟨i - batchSize, by omega⟩
        have hbs_le : batchSize ≤ l.length := by omega
        have hlen1 : (if em.encodeFails (l.take batchSize) then
            List.replicate (l.take batchSize).length
              (List.replicate em.dim 0)
          else (l.take batchSize).map em.embedOne).length = batchSize := by
          rw [hblock]
          simp only [List.length_take]
          omega
        rw [List.getElem?_append_right (by omega)]
        rw [hlen1]
        have hjlt : j < (l.drop batchSize).length := by
          simp only [List.length_drop]
          omega
        have hrec := ih (l.drop batchSize) j (by
          simp only [List.length_drop]
          omega) hjlt
        have hsimp1 : batchSize + j - batchSize = j := by omega
        rw [hsimp1, hrec]
        have hdiv2 : (batchSize + j) / batchSize = j / batchSize + 1 := by
          rw [Nat.add_comm]
          exact Nat.add_div_right j (by omega)
        have hdrop : (l.drop batchSize).drop (j / batchSize * batchSize) =
            l.drop ((batchSize + j) / batchSize * batchSize) := by
          rw [List.drop_drop, hdiv2]
          congr 1
          ring
        rw [hdrop]
        congr 2
        rw [List.getElem_drop]
  exact fun texts i hi => main texts.length texts i le_rfl hi

/-- Witness for C6: batch size 2 over four texts where the second batch
(containing "bad") fails — position 3 is the zero-vector, position 0 is
the model's embedding. -/
theorem batch_embeddings_failure_isolation_witness :
    (1 ≤ 2 ∧ 3 < (["x", "y", "bad", "z"] : List String).length ∧
        0 < (["x", "y", "bad", "z"] : List String).length) ∧
      (batchGenerateEmbeddings emFail 2 ["x", "y", "bad", "z"])[3]? =
          some (List.replicate emFail.dim 0) ∧
        (batchGenerateEmbeddings emFail 2 ["x", "y", "bad", "z"])[0]? =
          some (emFail.embedOne "x") := by
  refine ⟨⟨by decide, by decide, by decide⟩, ?_, ?_⟩
  · have h := batch_embeddings_failure_isolation emFail 2 (by decide)
      ["x", "y", "bad", "z"] 3 (by decide)
    rw [h]
    have hff : emFail.encodeFails
        (List.take 2 (List.drop (3 / 2 * 2) ["x", "y", "bad", "z"])) =
          true := by decide
    rw [hff]
    simp
  · have h := batch_embeddings_failure_isolation emFail 2 (by decide)
      ["x", "y", "bad", "z"] 0 (by decide)
    rw [h]
    have hff : emFail.encodeFails
        (List.take 2 (List.drop (0 / 2 * 2) ["x", "y", "bad", "z"])) =
          false := by decide
    rw [hff]
    simp

/-! ## Chunker lemmas for C2 and C5 -/

theorem length_dropWhile_le (p : α → Bool) :
    ∀ l : List α, (l.dropWhile p).length ≤ l.length
  | [] => le_rfl
  | a :: l => by
    rw [List.dropWhile_cons]
    split
    · exact (length_dropWhile_le p l).trans (by simp)
    · simp

theorem mem_dropWhile_mem (p : α → Bool) :
    ∀ (l : List α) (a : α), a ∈ l.dropWhile p → a ∈ l
  | [], a, h => by simpa using h
  | b :: l, a, h => by
    rw [List.dropWhile_cons] at h
    split at h
    · exact List.mem_cons_of_mem _ (mem_dropWhile_mem p l a h)
    · exact h

theorem stripChars_length_le (l : List Char) :
    (stripChars l).length ≤ l.length := by
  unfold stripChars
  rw [List.length_reverse]
  calc ((l.dropWhile Char.isWhitespace).reverse.dropWhile
          Char.isWhitespace).length
      ≤ (l.dropWhile Char.isWhitespace).reverse.length :=
        length_dropWhile_le _ _
    _ = (l.dropWhile Char.isWhitespace).length := List.length_reverse _
    _ ≤ l.length := length_dropWhile_le _ _

theorem stripChars_eq_nil_iff (l : List Char) :
    stripChars l = [] ↔ ∀ c ∈ l, c.isWhitespace = true := by
  unfold stripChars
  rw [List.reverse_eq_nil_iff, List.dropWhile_eq_nil_iff]
  constructor
  · intro h c hc
    rw [← List.takeWhile_append_dropWhile Char.isWhitespace l] at hc
    rcases List.mem_append.mp hc with h1 | h2
    · exact List.mem_takeWhile_imp h1
    · exact h c (by simpa using h2)
  · intro h c hc
    rw [List.mem_reverse] at hc
    exact h c (mem_dropWhile_mem _ _ _ hc)

/-- A string that is itself the output of a strip still has non-blank
content after stripping again. -/
theorem stripChars_stripChars_ne_nil (t : List Char)
    (h : stripChars t ≠ []) : stripChars (stripChars t) ≠ [] := by
  intro hcontra
  rw [stripChars_eq_nil_iff] at hcontra
  have hne : List.dropWhile Char.isWhitespace
      ((t.dropWhile Char.isWhitespace).reverse) ≠ [] := by
    intro h0
    apply h
    unfold stripChars
    rw [h0]
    rfl
  have hhead := List.head_dropWhile_not Char.isWhitespace
    ((t.dropWhile Char.isWhitespace).reverse) hne
  have hmem : (List.dropWhile Char.isWhitespace
      ((t.dropWhile Char.isWhitespace).reverse)).head hne ∈ stripChars t := by
    unfold stripChars
    rw [List.mem_reverse]
    exact List.head_mem hne
  have hws := hcontra _ hmem
  rw [hws] at hhead
  exact absurd hhead (by simp)

theorem sumLens_cons (d : List Char) (ds : List (List Char)) :
    sumLens (d :: ds) = d.length + sumLens ds := by
  simp [sumLens]

theorem sumLens_append_single (l : List (List Char)) (d : List Char) :
    sumLens (l ++ [d]) = sumLens l + d.length := by
  simp [sumLens]

theorem sepJoin_nil_length :
    ∀ l : List (List Char), (sepJoin [] l).length = sumLens l
  | [] => rfl
  | [d] => by simp [sepJoin, sumLens]
  | d :: e :: ds => by
    have h := sepJoin_nil_length (e :: ds)
    simp only [sepJoin, List.length_append, List.length_nil] at h ⊢
    rw [sumLens_cons]
    omega

/-- Every chunk `_join_docs` emits is non-blank stripped text. -/
theorem joinDocs_out (sep : List Char) (docs : List (List Char))
    (c : List Char) (hc : c ∈ (joinDocs sep docs).toList) :
    c = stripChars (sepJoin sep docs) ∧ c ≠ [] := by
  simp only [joinDocs] at hc
  split at hc
  · simp at hc
  · next hne =>
    simp only [Option.toList_some, List.mem_singleton] at hc
    subst hc
    exact ⟨rfl, by simpa using hne⟩

/-- The popping loop keeps the running total equal to the summed length
of the retained pieces, and on exit either everything was popped or the
next piece fits (or the buffer is drained). -/
theorem popWhile_spec (cfg : ChunkCfg) (dLen : Int) :
    ∀ (cur : List (List Char)) (total : Int),
      total = (sumLens cur : Int) →
      (popWhile cfg 0 dLen cur total).2 =
          (sumLens (popWhile cfg 0 dLen cur total).1 : Int) ∧
        ((popWhile cfg 0 dLen cur total).1 = [] ∨
          ¬((popWhile cfg 0 dLen cur total).2 + dLen + 0 >
              (cfg.chunkSize : Int) ∧ (popWhile cfg 0 dLen cur total).2 > 0))
  | [], total, ht => by
    rw [popWhile]
    exact ⟨by simpa [sumLens] using ht, Or.inl rfl⟩
  | d0 :: rest, total, ht => by
    rw [popWhile]
    split
    · apply popWhile_spec cfg dLen rest
      rw [ht, sumLens_cons]
      push_cast
      simp only [ite_self]
      ring
    · next hcond =>
      rw [not_or] at hcond
      exact ⟨ht, Or.inr hcond.2⟩

/-- Invariants of the `_merge_splits` accumulation loop with the empty
separator (the only way the chunker calls it): every emitted chunk is
bounded by `chunk_size` and is non-blank stripped text. -/
theorem mergeLoop_out (cfg : ChunkCfg) :
    ∀ (ds cur : List (List Char)) (total : Int),
      (∀ d ∈ ds, d.length < cfg.chunkSize) →
      total = (sumLens cur : Int) →
      sumLens cur ≤ cfg.chunkSize →
      ∀ c ∈ mergeLoop cfg [] ds cur total,
        c.length ≤ cfg.chunkSize ∧ ∃ t, c = stripChars t ∧ c ≠ []
  | [], cur, total, _, _, hle, c, hc => by
    rw [mergeLoop] at hc
    obtain ⟨hceq, hcne⟩ := joinDocs_out [] cur c hc
    refine ⟨?_, ⟨_, hceq, hcne⟩⟩
    calc c.length = (stripChars (sepJoin [] cur)).length := by rw [hceq]
      _ ≤ (sepJoin [] cur).length := stripChars_length_le _
      _ = sumLens cur := sepJoin_nil_length cur
      _ ≤ cfg.chunkSize := hle
  | d :: ds, cur, total, hds, ht, hle, c, hc => by
    have hd : d.length < cfg.chunkSize := hds d (List.mem_cons_self d ds)
    have hds' : ∀ x ∈ ds, x.length < cfg.chunkSize :=
      fun x hx => hds x (List.mem_cons_of_mem _ hx)
    rw [mergeLoop] at hc
    simp only [List.length_nil, Nat.cast_zero, ite_self, add_zero] at hc
    split at hc
    · next hover =>
      split at hc
      · next hcur =>
        -- flush, pop back to the overlap, then append d
        rcases List.mem_append.mp hc with hcl | hcr
        · obtain ⟨hceq, hcne⟩ := joinDocs_out [] cur c hcl
          refine ⟨?_, ⟨_, hceq, hcne⟩⟩
          calc c.length = (stripChars (sepJoin [] cur)).length := by
                rw [hceq]
            _ ≤ (sepJoin [] cur).length := stripChars_length_le _
            _ = sumLens cur := sepJoin_nil_length cur
            _ ≤ cfg.chunkSize := hle
        · obtain ⟨hfst, hexit⟩ := popWhile_spec cfg (d.length : Int) cur total ht
          have hnn : (0 : Int) ≤
              (sumLens (popWhile cfg 0 (d.length : Int) cur total).1 : Int) :=
            Int.natCast_nonneg _
          refine mergeLoop_out cfg ds _ _ hds' ?_ ?_ c hcr
          · rw [hfst, sumLens_append_single]
            push_cast
            ring
          · rw [sumLens_append_single]
            rcases hexit with hnil | hfit
            · rw [hnil]
              simp only [sumLens, List.map_nil, List.sum_nil, Nat.zero_add]
              omega
            · rw [hfst] at hfit
              omega
      · next hcur =>
        -- overflow with an empty buffer: cur = [], total = 0
        have hcurnil : cur = [] := by
          cases cur with
          | nil => rfl
          | cons a l => simp at hcur
        subst hcurnil
        refine mergeLoop_out cfg ds _ _ hds' ?_ ?_ c hc
        · rw [ht]
          simp [sumLens]
        · rw [sumLens_append_single]
          simp only [sumLens, List.map_nil, List.sum_nil, Nat.zero_add]
          omega
    · next hover =>
      -- d fits: append it to the buffer
      refine mergeLoop_out cfg ds _ _ hds' ?_ ?_ c hc
      · rw [ht, sumLens_append_single]
        push_cast
        ring
      · rw [sumLens_append_single]
        rw [ht] at hover
        omega

/-- If `""` is among the separators, the selection loop either picks
`""` (with no separators left) or leaves `""` among the remaining
separators. -/
theorem chooseSep_empty_mem (last : List Char) :
    ∀ (seps : List (List Char)) (text : List Char), [] ∈ seps →
      ((chooseSep last seps text).1 = [] ∧
          (chooseSep last seps text).2 = []) ∨
        [] ∈ (chooseSep last seps text).2
  | [], _, hmem => absurd hmem (by simp)
  | s :: rest, text, hmem => by
    rw [chooseSep]
    split
    · exact Or.inl ⟨rfl, rfl⟩
    · next hs =>
      have hmem' : [] ∈ rest := by
        rcases List.mem_cons.mp hmem with h | h
        · exact absurd h.symm (by simpa using hs)
        · exact h
      split
      · exact Or.inr hmem'
      · exact chooseSep_empty_mem last rest text hmem'

/-- Splitting with the empty separator yields single characters. -/
theorem splitWithSep_nil_len (text : List Char) :
    ∀ s ∈ splitWithSep [] text, s.length = 1 := by
  intro s hs
  simp only [splitWithSep, List.isEmpty_nil, if_true] at hs
  rw [List.mem_filter] at hs
  obtain ⟨a, _, rfl⟩ := List.mem_map.mp hs.1
  rfl

/-- The invariant carried through the piece-processing loop of
`_split_text`: every emitted chunk is bounded by `chunk_size`, and —
when `chunk_size ≥ 2`, which rules out raw single-character emissions —
it is non-blank stripped text. -/
theorem splitLoop_out (cfg : ChunkCfg) (newSeps : List (List Char))
    (hcs : 1 ≤ cfg.chunkSize) :
    ∀ (splits good : List (List Char)),
      (newSeps = [] → ∀ s ∈ splits, s.length = 1) →
      (∀ s ∈ splits, ∀ c ∈ splitTextAux cfg newSeps s,
        c.length ≤ cfg.chunkSize ∧
          (2 ≤ cfg.chunkSize → ∃ t, c = stripChars t ∧ c ≠ [])) →
      (∀ g ∈ good, g.length < cfg.chunkSize) →
      ∀ c ∈ splitLoop cfg newSeps splits good,
        c.length ≤ cfg.chunkSize ∧
          (2 ≤ cfg.chunkSize → ∃ t, c = stripChars t ∧ c ≠ [])
  | [], good, _, _, hgood, c, hc => by
    rw [splitLoop] at hc
    split at hc
    · simp at hc
    · rw [mergeSplits] at hc
      obtain ⟨h1, h2⟩ := mergeLoop_out cfg good [] 0 hgood (by simp [sumLens])
        (by simp [sumLens]) c hc
      exact ⟨h1, fun _ => h2⟩
  | s :: rest, good, hsingle, hrec, hgood, c, hc => by
    rw [splitLoop] at hc
    split at hc
    · next hlen =>
      exact splitLoop_out cfg newSeps hcs rest (good ++ [s])
        (fun h0 x hx => hsingle h0 x (List.mem_cons_of_mem _ hx))
        (fun x hx => hrec x (List.mem_cons_of_mem _ hx))
        (by
          intro g hg
          rcases List.mem_append.mp hg with h1 | h2
          · exact hgood g h1
          · rw [List.mem_singleton] at h2
            subst h2
            exact hlen)
        c hc
    · next hlen =>
      rcases List.mem_append.mp hc with hflush | hc2
      · rcases List.mem_append.mp hflush with hmerge | hmid
        · -- flushed buffer
          split at hmerge
          · simp at hmerge
          · rw [mergeSplits] at hmerge
            obtain ⟨h1, h2⟩ := mergeLoop_out cfg good [] 0 hgood
              (by simp [sumLens]) (by simp [sumLens]) c hmerge
            exact ⟨h1, fun _ => h2⟩
        · -- middle: raw emission or recursive re-split
          split at hmid
          · next hempty =>
            rw [List.mem_singleton] at hmid
            subst hmid
            have h1 : c.length = 1 :=
              hsingle (by simpa using hempty) c (List.mem_cons_self c rest)
            refine ⟨by omega, ?_⟩
            intro h2
            omega
          · next hempty =>
            exact hrec s (List.mem_cons_self s rest) c hmid
      · exact splitLoop_out cfg newSeps hcs rest []
          (fun h0 x hx => hsingle h0 x (List.mem_cons_of_mem _ hx))
          (fun x hx => hrec x (List.mem_cons_of_mem _ hx))
          (by simp) c hc2

/-- The main splitter invariant: as long as `""` is among the
separators, every chunk `_split_text` emits is at most `chunk_size`
characters, and is non-blank stripped text when `chunk_size ≥ 2`. -/
theorem splitTextAux_out (cfg : ChunkCfg) (hcs : 1 ≤ cfg.chunkSize) :
    ∀ (seps : List (List Char)), [] ∈ seps → ∀ (text c : List Char),
      c ∈ splitTextAux cfg seps text →
      c.length ≤ cfg.chunkSize ∧
        (2 ≤ cfg.chunkSize → ∃ t, c = stripChars t ∧ c ≠ []) := by
  have H : ∀ (n : Nat) (seps : List (List Char)), seps.length ≤ n →
      [] ∈ seps → ∀ (text c : List Char), c ∈ splitTextAux cfg seps text →
      c.length ≤ cfg.chunkSize ∧
        (2 ≤ cfg.chunkSize → ∃ t, c = stripChars t ∧ c ≠ []) := by
    intro n
    induction n with
    | zero =>
      intro seps hlen hmem
      have : seps = [] := by
        cases seps with
        | nil => rfl
        | cons a l => simp at hlen
      subst this
      simp at hmem
    | succ n ih =>
      intro seps hlen hmem text c hc
      cases seps with
      | nil => simp at hmem
      | cons s0 rest =>
        rw [splitTextAux] at hc
        rcases chooseSep_empty_mem ((s0 :: rest).getLastD [])
            (s0 :: rest) text hmem with ⟨h1, h2⟩ | hmem2
        · -- the empty separator was selected: pieces are single chars,
          -- and there is no recursion
          refine splitLoop_out cfg _ hcs _ [] ?_ ?_ (by simp) c hc
          · intro _ x hx
            rw [h1] at hx
            exact splitWithSep_nil_len text x hx
          · intro x hx c' hc'
            rw [h2] at hc'
            rw [splitTextAux] at hc'
            simp at hc'
        · -- `""` is still among the remaining separators: recurse
          have hlt := chooseSep_snd_length_lt ((s0 :: rest).getLastD [])
            s0 rest text
          refine splitLoop_out cfg _ hcs _ [] ?_ ?_ (by simp) c hc
          · intro h0
            rw [h0] at hmem2
            simp at hmem2
          · intro x hx c' hc'
            have hle2 : (chooseSep ((s0 :: rest).getLastD [])
                (s0 :: rest) text).2.length ≤ n := by
              simp only [List.length_cons] at hlt hlen
              omega
            exact ih _ hle2 hmem2 x c' hc'
  intro seps hmem text c hc
  exact H seps.length seps le_rfl hmem text c hc

/-- C5 core: every chunk of `split_text` is at most `chunk_size`
characters (the separator list ends with `""`). -/
theorem splitText_length_le (cfg : ChunkCfg) (hcs : 1 ≤ cfg.chunkSize)
    (text c : List Char) (hc : c ∈ splitText cfg text) :
    c.length ≤ cfg.chunkSize :=
  (splitTextAux_out cfg hcs defaultSeps (by simp [defaultSeps]) text c hc).1

/-- C2 core: with `chunk_size ≥ 2` every chunk of `split_text` is still
non-blank after the `chunk_text` loop strips it. -/
theorem splitText_strip_ne_nil (cfg : ChunkCfg) (h2 : 2 ≤ cfg.chunkSize)
    (text c : List Char) (hc : c ∈ splitText cfg text) :
    (stripChars c).isEmpty = false := by
  obtain ⟨t, hceq, hcne⟩ :=
    (splitTextAux_out cfg (by omega) defaultSeps (by simp [defaultSeps])
      text c hc).2 h2
  rw [List.isEmpty_eq_false]
  rw [hceq]
  exact stripChars_stripChars_ne_nil t (hceq ▸ hcne)

theorem orDefault_pos (x : Option Nat) (d : Nat) (hd : 1 ≤ d) :
    1 ≤ orDefault x d := by
  match x with
  | none => simpa [orDefault] using hd
  | some 0 => simpa [orDefault] using hd
  | some (n + 1) => simp [orDefault]

theorem mkTextChunker_chunkSize (a b : Option Nat) (tc : TextChunker)
    (h : mkTextChunker a b = Except.ok tc) :
    tc.chunkSize = orDefault a 1000 := by
  simp only [mkTextChunker] at h
  split at h
  · exact absurd h (by simp)
  · cases h
    rfl

theorem snd_mem_of_mem_enumFrom :
    ∀ (l : List α) (n : Nat) (p : Nat × α), p ∈ l.enumFrom n → p.2 ∈ l
  | [], n, p, h => by simp at h
  | a :: l, n, p, h => by
    rw [List.enumFrom_cons] at h
    rcases List.mem_cons.mp h with h1 | h2
    · subst h1
      exact List.mem_cons_self _ _
    · exact List.mem_cons_of_mem _ (snd_mem_of_mem_enumFrom l (n + 1) p h2)

theorem snd_mem_of_mem_enum (l : List α) (p : Nat × α) (h : p ∈ l.enum) :
    p.2 ∈ l :=
  snd_mem_of_mem_enumFrom l 0 p (by simpa [List.enum] using h)

theorem filterMap_eq_map_of_forall :
    ∀ (l : List α) (f : α → Option β) (g : α → β),
      (∀ a ∈ l, f a = some (g a)) → l.filterMap f = l.map g
  | [], _, _, _ => rfl
  | a :: l, f, g, h => by
    rw [List.filterMap_cons, h a (List.mem_cons_self a l), List.map_cons,
      filterMap_eq_map_of_forall l f g
        (fun x hx => h x (List.mem_cons_of_mem _ hx))]

/-- When no split chunk is blank, the chunk-building loop keeps every
piece. -/
theorem chunkLoop_eq_map (tcs : List (List Char)) (g : Nat × List Char → Chunk)
    (hcond : ∀ ct ∈ tcs, (stripChars ct).isEmpty = false) :
    (tcs.enum.filterMap fun p =>
        if (stripChars p.2).isEmpty then none else some (g p)) =
      tcs.enum.map g := by
  apply filterMap_eq_map_of_forall
  intro p hp
  rw [if_neg]
  rw [hcond p.2 (snd_mem_of_mem_enum tcs p hp)]
  simp

/-- Index density and total-count facts of the chunk-building loop when
no chunk is dropped. -/
theorem chunkLoop_dense_facts (tcs : List (List Char))
    (g : Nat × List Char → Chunk)
    (hgidx : ∀ p, (g p).chunkIndex = p.1)
    (hgtot : ∀ p, (g p).totalChunks = tcs.length)
    (hcond : ∀ ct ∈ tcs, (stripChars ct).isEmpty = false) :
    ((tcs.enum.filterMap fun p =>
        if (stripChars p.2).isEmpty then none else some (g p)).map
          (·.chunkIndex) =
      List.range (tcs.enum.filterMap fun p =>
        if (stripChars p.2).isEmpty then none else some (g p)).length) ∧
      ∀ c ∈ tcs.enum.filterMap fun p =>
          if (stripChars p.2).isEmpty then none else some (g p),
        c.totalChunks = (tcs.enum.filterMap fun p =>
          if (stripChars p.2).isEmpty then none else some (g p)).length := by
  rw [chunkLoop_eq_map tcs g hcond]
  constructor
  · rw [List.map_map, List.length_map, List.enum_length]
    have hmap : tcs.enum.map ((fun c => c.chunkIndex) ∘ g) =
        tcs.enum.map Prod.fst :=
      List.map_congr_left fun p _ => hgidx p
    rw [hmap, List.enum_map_fst]
  · intro c hc
    obtain ⟨p, _, hpc⟩ := List.mem_map.mp hc
    rw [← hpc, hgtot p, List.length_map, List.enum_length]

/-! ## C5: every emitted chunk is at most chunk_size characters -/

/-- C5: for any `TextChunker` the constructor accepts, every chunk that
`chunk_text` or `_chunk_document` emits has content of at most
`chunk_size` characters — the character-level fallback of the recursive
split (separator list ending in `""`) enforces the bound. -/
theorem chunk_content_le_chunk_size (chunkSize chunkOverlap : Option Nat)
    (tc : TextChunker)
    (htc : mkTextChunker chunkSize chunkOverlap = Except.ok tc)
    (text : List Char) (doc : PyDocument) :
    (∀ c ∈ chunkText tc text, c.content.length ≤ tc.chunkSize) ∧
      ∀ c ∈ chunkDocument tc doc, c.content.length ≤ tc.chunkSize := by
  have hsize : 1 ≤ tc.chunkSize := by
    rw [mkTextChunker_chunkSize chunkSize chunkOverlap tc htc]
    exact orDefault_pos _ _ (by omega)
  constructor
  · intro c hc
    simp only [chunkText] at hc
    split at hc
    · simp at hc
    · obtain ⟨p, hp, hfp⟩ := List.mem_filterMap.mp hc
      split at hfp
      · simp at hfp
      · cases hfp
        have hmem := snd_mem_of_mem_enum _ p hp
        calc (stripChars p.2).length ≤ p.2.length := stripChars_length_le _
          _ ≤ tc.chunkSize := splitText_length_le _ hsize text p.2 hmem
  · intro c hc
    simp only [chunkDocument] at hc
    split at hc
    · simp at hc
    · obtain ⟨p, hp, hfp⟩ := List.mem_filterMap.mp hc
      split at hfp
      · simp at hfp
      · cases hfp
        have hmem := snd_mem_of_mem_enum _ p hp
        calc (stripChars p.2).length ≤ p.2.length := stripChars_length_le _
          _ ≤ tc.chunkSize := splitText_length_le _ hsize doc.content p.2 hmem

/-- The document fixture for the chunker witnesses. -/
def docFix : PyDocument :=
  { fileName := "doc.txt"
    content := ['a', 'b', 'c', ' ', 'd', 'e'] }

/-- Witness for C5 at a concrete accepted configuration. -/
theorem chunk_content_le_chunk_size_witness :
    mkTextChunker (some 5) (some 2) =
        Except.ok { chunkSize := 5, chunkOverlap := 2 } ∧
      ((∀ c ∈ chunkText { chunkSize := 5, chunkOverlap := 2 } docFix.content,
          c.content.length ≤
            ({ chunkSize := 5, chunkOverlap := 2 } : TextChunker).chunkSize) ∧
        ∀ c ∈ chunkDocument { chunkSize := 5, chunkOverlap := 2 } docFix,
          c.content.length ≤
            ({ chunkSize := 5, chunkOverlap := 2 } : TextChunker).chunkSize) :=
  ⟨rfl, chunk_content_le_chunk_size (some 5) (some 2)
    { chunkSize := 5, chunkOverlap := 2 } rfl docFix.content docFix⟩

/-! ## C2: dense chunk indices and exact total_chunks -/

/-- Counterexample to C2 as stated: with `chunk_size = 1` (accepted by
the constructor together with `chunk_overlap = 1`) the splitter emits
the raw single characters `["a", " ", "b"]` for the text `"a b"`; the
blank middle chunk is dropped, but `chunk_index` keeps the original
enumeration values `0` and `2` — not reassigned densely — and
`total_chunks` stays `3`, the pre-drop count, not the final count `2`. -/
theorem chunk_indices_dense_cex :
    mkTextChunker (some 1) (some 1) =
        Except.ok { chunkSize := 1, chunkOverlap := 1 } ∧
      (chunkText { chunkSize := 1, chunkOverlap := 1 } ['a', ' ', 'b']).map
          (·.chunkIndex) = [0, 2] ∧
      (chunkText { chunkSize := 1, chunkOverlap := 1 } ['a', ' ', 'b']).map
          (·.totalChunks) = [3, 3] ∧
      (chunkText { chunkSize := 1, chunkOverlap := 1 } ['a', ' ', 'b']).map
          (·.chunkIndex) ≠
        List.range (chunkText { chunkSize := 1, chunkOverlap := 1 }
          ['a', ' ', 'b']).length := by
  have hval : (chunkText { chunkSize := 1, chunkOverlap := 1 }
      ['a', ' ', 'b']).map (·.chunkIndex) = [0, 2] := by
    simp [chunkText, splitText, defaultSeps, splitTextAux, splitLoop,
      chooseSep, containsSeq, splitWithSep, splitOnSeq, mergeSplits,
      mergeLoop, popWhile, joinDocs, sepJoin, stripChars, sumLens,
      List.isPrefixOf]
    decide
  have htot : (chunkText { chunkSize := 1, chunkOverlap := 1 }
      ['a', ' ', 'b']).map (·.totalChunks) = [3, 3] := by
    simp [chunkText, splitText, defaultSeps, splitTextAux, splitLoop,
      chooseSep, containsSeq, splitWithSep, splitOnSeq, mergeSplits,
      mergeLoop, popWhile, joinDocs, sepJoin, stripChars, sumLens,
      List.isPrefixOf]
    decide
  have hlen : (chunkText { chunkSize := 1, chunkOverlap := 1 }
      ['a', ' ', 'b']).length = 2 := by
    have := congrArg List.length hval
    simpa using this
  refine ⟨rfl, hval, htot, ?_⟩
  rw [hval, hlen]
  decide

/-- C2 (amended): once `chunk_size ≥ 2`, the splitter never emits an
empty or whitespace-only chunk (each merged chunk is already stripped
and non-empty), so nothing is dropped: the surviving chunks of one
source carry `chunk_index` 0..n-1 contiguously and every chunk's
`total_chunks` equals the final count n.  (With `chunk_size = 1`,
dropped whitespace chunks leave gaps, as the counterexample shows.) -/
theorem chunk_indices_dense (tc : TextChunker) (h2 : 2 ≤ tc.chunkSize)
    (text : List Char) (doc : PyDocument) :
    ((chunkText tc text).map (·.chunkIndex) =
        List.range (chunkText tc text).length ∧
      ∀ c ∈ chunkText tc text,
        c.totalChunks = (chunkText tc text).length) ∧
      ((chunkDocument tc doc).map (·.chunkIndex) =
          List.range (chunkDocument tc doc).length ∧
        ∀ c ∈ chunkDocument tc doc,
          c.totalChunks = (chunkDocument tc doc).length) := by
  constructor
  · simp only [chunkText]
    split
    · simp
    · exact chunkLoop_dense_facts _ _ (fun p => rfl) (fun p => rfl)
        (fun ct hct => splitText_strip_ne_nil _ h2 text ct hct)
  · simp only [chunkDocument]
    split
    · simp
    · exact chunkLoop_dense_facts _ _ (fun p => rfl) (fun p => rfl)
        (fun ct hct => splitText_strip_ne_nil _ h2 doc.content ct hct)

/-- Witness for C2 (amended) at the default configuration. -/
theorem chunk_indices_dense_witness :
    2 ≤ ({ chunkSize := 1000, chunkOverlap := 200 } : TextChunker).chunkSize ∧
      (((chunkText { chunkSize := 1000, chunkOverlap := 200 }
            docFix.content).map (·.chunkIndex) =
          List.range (chunkText { chunkSize := 1000, chunkOverlap := 200 }
            docFix.content).length ∧
        ∀ c ∈ chunkText { chunkSize := 1000, chunkOverlap := 200 }
            docFix.content,
          c.totalChunks = (chunkText { chunkSize := 1000, chunkOverlap := 200 }
            docFix.content).length) ∧
        ((chunkDocument { chunkSize := 1000, chunkOverlap := 200 }
              docFix).map (·.chunkIndex) =
            List.range (chunkDocument { chunkSize := 1000, chunkOverlap := 200 }
              docFix).length ∧
          ∀ c ∈ chunkDocument { chunkSize := 1000, chunkOverlap := 200 }
              docFix,
            c.totalChunks =
              (chunkDocument { chunkSize := 1000, chunkOverlap := 200 }
                docFix).length)) :=
  ⟨by decide, chunk_indices_dense { chunkSize := 1000, chunkOverlap := 200 }
    (by decide) docFix.content docFix⟩

end AyurRag
